import Mathlib

set_option maxRecDepth 4000

/-!
Verification development for `wx/tools/img2py.py` (repository a-detiste/Phoenix).

The module converts an image to PNG bytes, base64-encodes them, wraps the
encoding into indented 72-character chunks, and writes an embedded-image
record into a generated Python artifact, optionally maintaining a catalog
of names reconciled by re-scanning the artifact with a regular expression.

Strings are modelled as `List Char`; bytes are `Nat` values with explicit
`< 256` bounds where relevant.  Python's Unicode character classes
(`str.isalnum`, `str.isalpha`, `\s`) are modelled by the corresponding
ASCII classifiers, which agree with Python on every character the tool
manipulates.  Partial Python functions (e.g. an `IndexError` on an empty
name, a `FileNotFoundError` on a missing artifact) are made explicit with
`Option` / an outcome flag.
-/

/-- Character list of a string literal. -/
def chars (s : String) : List Char := s.toList

/-- The single-quote character (code point 39), named so the development
does not need quote characters inside string literals. -/
def qc : Char := Char.ofNat 39

/-- The opening-brace character (code point 123). -/
def lbrace : Char := Char.ofNat 123

/-- Four-space indentation prefixed to every encoded payload chunk
(`output = '    %s' % part`). -/
def indent4 : List Char := chars "    "

/-- The base64 alphabet used by `base64.b64encode`. -/
def b64alphabet : List Char :=
  chars "ABCDEFGHIJKLMNOPQRSTUVWXYZabcdefghijklmnopqrstuvwxyz0123456789+/"

/-- Alphabet character of a 6-bit value. -/
def b64char (n : Nat) : Char := b64alphabet.getD n 'A'

/-- Position of a character in the base64 alphabet; `none` for characters
outside the alphabet (in particular for the padding character). -/
def b64value (c : Char) : Option Nat := b64alphabet.findIdx? (fun x => x = c)

/-- Base64 encoding of a byte sequence, exactly as `base64.b64encode`
produces it: 3-byte blocks become four alphabet characters, a 2-byte
remainder three characters plus one padding char, a 1-byte remainder two
characters plus two padding chars. -/
def b64encode : List Nat → List Char
  | [] => []
  | [b1] => [b64char (b1 / 4), b64char (b1 % 4 * 16), '=', '=']
  | [b1, b2] => [b64char (b1 / 4), b64char (b1 % 4 * 16 + b2 / 16),
      b64char (b2 % 16 * 4), '=']
  | b1 :: b2 :: b3 :: rest =>
      b64char (b1 / 4) :: b64char (b1 % 4 * 16 + b2 / 16) ::
      b64char (b2 % 16 * 4 + b3 / 64) :: b64char (b3 % 64) :: b64encode rest

/-- Decoding of a final base64 quad, honouring padding. -/
def b64decodeLast (c1 c2 c3 c4 : Char) : Option (List Nat) :=
  match b64value c1, b64value c2 with
  | some v1, some v2 =>
    if c3 = '=' ∧ c4 = '=' then some [v1 * 4 + v2 / 16]
    else
      match b64value c3 with
      | some v3 =>
        if c4 = '=' then some [v1 * 4 + v2 / 16, v2 % 16 * 16 + v3 / 4]
        else
          match b64value c4 with
          | some v4 => some [v1 * 4 + v2 / 16, v2 % 16 * 16 + v3 / 4,
              v3 % 4 * 64 + v4]
          | none => none
      | none => none
  | _, _ => none

/-- Standard (strict) base64 decoding: the input must consist of complete
quads over the alphabet, with padding allowed only in the final quad;
any other character makes decoding fail. -/
def b64decode : List Char → Option (List Nat)
  | [] => some []
  | c1 :: c2 :: c3 :: c4 :: rest =>
    if rest = [] then b64decodeLast c1 c2 c3 c4
    else
      match b64value c1, b64value c2, b64value c3, b64value c4 with
      | some v1, some v2, some v3, some v4 =>
          (b64decode rest).map (fun tl =>
            (v1 * 4 + v2 / 16) :: (v2 % 16 * 16 + v3 / 4) ::
            (v3 % 4 * 64 + v4) :: tl)
      | _, _, _, _ => none
  | _ => none

/-- Python-3 `str` formatting of a base64 bytes chunk: `'%s' % part` on a
`bytes` value yields its repr `b'...'`.  Base64 characters need no
escaping, so the repr is exactly `b` + quote + chunk + quote. -/
def bytesRepr (part : List Char) : List Char :=
  'b' :: qc :: (part ++ [qc])

/-- Fuel-driven core of the chunking loop of `img2py`:

    while data:
        part = data[:72]
        data = data[72:]
        output = '    %s' % part
        if not data:
            output += ")"
        lines.append(output)

The fuel is instantiated with the length of the data, which bounds the
number of iterations. -/
def mkLinesGo : Nat → List Char → List (List Char)
  | _, [] => []
  | 0, _ :: _ => []
  | n + 1, c :: cs =>
      let part := (c :: cs).take 72
      let rest := (c :: cs).drop 72
      if rest = [] then [indent4 ++ (bytesRepr part ++ [')'])]
      else (indent4 ++ bytesRepr part) :: mkLinesGo n rest

/-- The chunk lines produced from a base64 character stream. -/
def mkLines (data : List Char) : List (List Char) := mkLinesGo data.length data

/-- The EncodedPayload chunk list `lines` that `img2py` builds from the
canonical PNG bytes. -/
def payloadLines (bytes : List Nat) : List (List Char) := mkLines (b64encode bytes)

/-- The payload text `data = "\n".join(lines)`. -/
def payloadText (bytes : List Nat) : List Char :=
  List.intercalate ['\n'] (payloadLines bytes)

/-- Chunk-content extraction: strip the 4-space indentation, the `)`
terminator when present, and the bytes-literal delimiters (`b` + quote
prefix, quote suffix), leaving the chunk's base64 characters. -/
def chunkContent (line : List Char) : List Char :=
  let l1 := line.drop 4
  let l2 := if l1.getLast? = some ')' then l1.dropLast else l1
  (l2.drop 2).dropLast

/-- Modelled from the claim's words (for comparison with the code): strip
only each chunk's 4-space indentation, the newlines joining chunks, and
the final `)` terminator — without removing the bytes-literal
delimiters. -/
def specClaimedStrip (bytes : List Nat) : List Char :=
  let joined := ((payloadLines bytes).map (fun l => l.drop 4)).flatten
  if joined.getLast? = some ')' then joined.dropLast else joined

/-- `_replace_non_alphanumeric_with_underscore(imgName)`: replace every
non-alphanumeric character with an underscore, and prepend an underscore
when the first resulting character is neither a letter nor an underscore.
The source indexes `letters[0]` unconditionally, so the empty name raises
`IndexError`, modelled as `none`. -/
def _replace_non_alphanumeric_with_underscore (imgName : List Char) : Option (List Char) :=
  let letters := imgName.map (fun letter => if letter.isAlphanum then letter else '_')
  match letters with
  | [] => none
  | l0 :: _ =>
    if ¬ l0.isAlpha ∧ l0 ≠ '_' then some ('_' :: letters) else some letters

/-- Python regex class `\s` restricted to ASCII. -/
def isPySpace (c : Char) : Bool :=
  c == ' ' || c == '\t' || c == '\n' || c == '\r' || c == Char.ofNat 11 || c == Char.ofNat 12

/-- Backtracking core of the greedy group `(.+)'\)` of `indexPattern`:
the group match is the text before the last quote-parenthesis pair of
`s`, preferring later pairs (greedy `.+` backtracks from the right). -/
def lastQPaux : List Char → Option (List Char)
  | [] => none
  | c :: rest =>
    match lastQPaux rest with
    | some g => some (c :: g)
    | none => if c = qc ∧ rest.headD ' ' = ')' then some [] else none

/-- Model of `indexPattern.match(line)` followed by `.groups()[0]`, for
`indexPattern = re.compile(r"\s*index.append\('(.+)'\)\s*")` under Python
`re.match` semantics (anchored at the start only): leading whitespace is
consumed greedily, the literal `index` must follow, the unescaped `.`
matches one character other than newline, then the literal `append('`;
the greedy `(.+)` cannot cross a newline and must be non-empty, so the
group is the text before the last quote-parenthesis pair of the segment
before the next newline; the trailing `\s*` constrains nothing because
the pattern is not end-anchored. -/
def indexPatternMatch (line : List Char) : Option (List Char) :=
  let r1 := line.dropWhile isPySpace
  if (chars "index").isPrefixOf r1 ∧ (r1.drop 5).headD '\n' ≠ '\n' ∧
      ((chars "append(") ++ [qc]).isPrefixOf (r1.drop 6) then
    let seg := (r1.drop 14).takeWhile (fun d => d != '\n')
    match lastQPaux seg with
    | some g => if g = [] then none else some g
    | none => none
  else none

/-- Split text into lines the way Python file iteration does: every line
keeps its terminating newline; a final fragment without a newline is a
line of its own. -/
def pyLines : List Char → List (List Char)
  | [] => []
  | c :: rest =>
    if c = '\n' then ['\n'] :: pyLines rest
    else
      match pyLines rest with
      | [] => [[c]]
      | l :: ls => (c :: l) :: ls

/-- The scaffolding-marker line compared against literally by the scan. -/
def catalogLine : List Char := chars "catalog = \x7b\x7d\n"

/-- The record separator line `"#" + "-" * 70 + "\n"`. -/
def sepLine : List Char := '#' :: (List.replicate 70 '-' ++ ['\n'])

/-- The emitted index-registration statement for a name. -/
def indexLine (name : List Char) : List Char :=
  chars "index.append(" ++ ([qc] ++ (name ++ [qc, ')', '\n']))

/-- The emitted catalog-mapping statement for a name and identifier. -/
def catLine (name varName : List Char) : List Char :=
  chars "catalog[" ++ ([qc] ++ (name ++ ([qc] ++ (chars "] = " ++ (varName ++ ['\n'])))))

/-- The generated-file header comment written for a fresh artifact. -/
def headerText (argv0 : List Char) : List Char :=
  chars "# This file was generated by " ++ (argv0 ++ chars "\n#\n")

/-- The import statement for the embedded-image support class. -/
def importStmt : List Char := chars "from wx.lib.embeddedimage import PyEmbeddedImage"

/-- The full import write of `_write_image` (statement plus blank line). -/
def importText : List Char := importStmt ++ chars "\n\n"

/-- The catalog scaffolding written by `_write_image` on a fresh artifact. -/
def scaffoldText : List Char := catalogLine ++ chars "index = []\n\n"

/-- The scaffolding block appended by `img2py` when the append+catalog
scan finds no marker line (three consecutive writes). -/
def catalogStartBlock : List Char :=
  chars "\n# ***************** Catalog starts here *******************" ++
    (chars "\n\ncatalog = \x7b\x7d\n" ++ chars "index = []\n\n")

/-- Legacy accessor binding for raw data. -/
def accData (v : List Char) : List Char :=
  chars "get" ++ (v ++ (chars "Data = " ++ (v ++ chars ".GetData\n")))

/-- Legacy accessor binding for the image object. -/
def accImage (v : List Char) : List Char :=
  chars "get" ++ (v ++ (chars "Image = " ++ (v ++ chars ".GetImage\n")))

/-- Legacy accessor binding for the bitmap. -/
def accBitmap (v : List Char) : List Char :=
  chars "get" ++ (v ++ (chars "Bitmap = " ++ (v ++ chars ".GetBitmap\n")))

/-- Legacy accessor binding for the icon. -/
def accIcon (v : List Char) : List Char :=
  chars "get" ++ (v ++ (chars "Icon = " ++ (v ++ chars ".GetIcon\n")))

/-- The block of legacy accessor bindings. -/
def funcText (v : List Char) (icon : Bool) : List Char :=
  accData v ++ (accImage v ++ (accBitmap v ++ (if icon then accIcon v else [])))

/-- First line of the duplicate-name warning. -/
def warnShadow1 (name : List Char) : List Char :=
  chars "Warning: " ++ (name ++ chars " already in catalog.")

/-- Second line of the duplicate-name warning. -/
def warnShadow2 : List Char := chars "         Only the last entry will be accessible.\n"

/-- The identifier assignment write
`"%s = PyEmbeddedImage(\n%s\n" % (varName, data)`. -/
def assignText (v data : List Char) : List Char :=
  v ++ (chars " = PyEmbeddedImage(\n" ++ (data ++ ['\n']))

/-- `_write_image(out, imgName, data, append, icon, catalog,
functionCompatible, old_index)`: first component is the text written to
`out`; the second is `none` when the sanitizer raises on an empty name
(the separator and optional header already written are flushed as the
exception unwinds), otherwise the mutated `old_index` and the warning
lines printed. -/
def _write_image (imgName data : List Char) (append icon catalog functionCompatible : Bool)
    (old_index : List (List Char)) (argv0 : List Char) :
    List Char × Option (List (List Char) × List (List Char)) :=
  let hdr : List Char :=
    if append = false then
      headerText argv0 ++ (importText ++ (if catalog then scaffoldText else []))
    else []
  match _replace_non_alphanumeric_with_underscore imgName with
  | none => (sepLine ++ hdr, none)
  | some varName =>
    let warns := if catalog ∧ imgName ∈ old_index then [warnShadow1 imgName, warnShadow2] else []
    let idx := if catalog then old_index ++ [imgName] else old_index
    let catText := if catalog then indexLine imgName ++ catLine imgName varName else []
    let fText := if functionCompatible then funcText varName icon else []
    (sepLine ++ (hdr ++ (assignText varName data ++ (catText ++ (fText ++ ['\n'])))),
     some (idx, warns))

/-- The reconciliation loop of `img2py` over the lines of an existing
artifact: `append_catalog` starts true and is cleared by the
scaffolding-marker line; every other line matching the index pattern
appends its extracted name to `old_index`. -/
def scanLines : List (List Char) → Bool → List (List Char) → Bool × List (List Char)
  | [], append_catalog, old_index => (append_catalog, old_index)
  | line :: rest, append_catalog, old_index =>
    if line = catalogLine then scanLines rest false old_index
    else
      match indexPatternMatch line with
      | some name => scanLines rest append_catalog (old_index ++ [name])
      | none => scanLines rest append_catalog old_index

/-- Names a scan extracts from a list of lines, in source order. -/
def lineNames (ls : List (List Char)) : List (List Char) :=
  ls.filterMap (fun l => if l = catalogLine then none else indexPatternMatch l)

/-- The fast path of `convert(fileName, maskClr, outputDir, outputName,
outType, outExt)`: with no mask override and a file name already ending
in the target extension (case-insensitively), the source bytes are
copied verbatim to the destination and `(True, "ok")` is returned;
otherwise the call is delegated to the external `img2img.convert` codec
(modelled as `none`; destination-path selection, which never alters the
copied bytes, is abstracted). -/
def convert (fileName : List Char) (maskClr : Option (List Char)) (outExt : List Char)
    (srcBytes : List Nat) : Option (List Nat × Bool × List Char) :=
  if maskClr = none ∧ (outExt.map Char.toUpper).isSuffixOf (fileName.map Char.toUpper) then
    some (srcBytes, true, chars "ok")
  else none

/-- Result of the conversion step performed inside the `try` block:
canonical PNG bytes, a codec failure `(False, msg)`, or an unexpected
exception. -/
inductive CodecResult
  | ok (pngBytes : List Nat)
  | fail (msg : List Char)
  | exn
  deriving DecidableEq

/-- How the invocation ends: normal return, or an uncaught exception. -/
inductive Outcome
  | returned
  | raised
  deriving DecidableEq

/-- Configuration of one `img2py` invocation, with the logical image name
already resolved (the fallback deriving it from the file name, and its
warning, sit before the write and are orthogonal to the claims). -/
structure Config where
  append : Bool
  catalog : Bool
  icon : Bool
  functionCompatible : Bool
  image_file : List Char
  python_file : List Char
  imgName : List Char
  argv0 : List Char
  maskClr : Option (List Char)
  deriving DecidableEq

/-- Observable result of one invocation: the target file afterwards
(`none` = still absent), the record text written to standard output when
the target is `-`, the `print` messages issued, whether the temporary
file still exists, and the outcome. -/
structure RunResult where
  file : Option (List Char)
  stdoutText : List Char
  printed : List (List Char)
  tempExists : Bool
  outcome : Outcome
  deriving DecidableEq

/-- The `finally` clause: `if os.path.exists(tfname): os.remove(tfname)`. -/
def finallyDelete (tempExists : Bool) : Bool := if tempExists then false else tempExists

/-- The summary line printed at the end of a successful invocation. -/
def embedMsg (cfg : Config) : List Char :=
  let n_msg := if cfg.imgName = [] then []
    else chars " using \"" ++ (cfg.imgName ++ chars "\"")
  let m_msg := match cfg.maskClr with
    | some m => if m = [] then [] else chars " with mask " ++ m
    | none => []
  chars "Embedded " ++ (cfg.image_file ++ (n_msg ++ (chars " into " ++ (cfg.python_file ++ m_msg))))

/-- The artifact-writing step of `img2py`: write the record to standard
output when the target is `-`, otherwise open the file in append or
overwrite mode (append creates a missing file) and write the record. -/
def writeStep (cfg : Config) (data : List Char) (old_index : List (List Char))
    (fs : Option (List Char)) (temp : Bool) : RunResult :=
  if cfg.python_file = ['-'] then
    match _write_image cfg.imgName data cfg.append cfg.icon cfg.catalog
        cfg.functionCompatible old_index cfg.argv0 with
    | (text, none) => ⟨fs, text, [], temp, .raised⟩
    | (text, some (_, warns)) => ⟨fs, text, warns ++ [embedMsg cfg], temp, .returned⟩
  else
    let base := if cfg.append then fs.getD [] else []
    match _write_image cfg.imgName data cfg.append cfg.icon cfg.catalog
        cfg.functionCompatible old_index cfg.argv0 with
    | (text, none) => ⟨some (base ++ text), [], [], temp, .raised⟩
    | (text, some (_, warns)) =>
        ⟨some (base ++ text), [], warns ++ [embedMsg cfg], temp, .returned⟩

/-- One `img2py` invocation after argument resolution.  The conversion
step inside the `try` block is abstracted by `codec` (its internal fast
path is `convert` above); the temporary file is created before the `try`
block and the `finally` clause deletes it on every path out of it.  `fs`
is the prior content of the target artifact (`none` when the file does
not exist); opening a missing artifact for reading in the append+catalog
reconciliation raises `FileNotFoundError`. -/
def img2py (cfg : Config) (codec : CodecResult) (fs : Option (List Char)) : RunResult :=
  match codec with
  | .exn => ⟨fs, [], [], finallyDelete true, .raised⟩
  | .fail msg => ⟨fs, [], [msg], finallyDelete true, .returned⟩
  | .ok pngBytes =>
    let data := payloadText pngBytes
    let temp := finallyDelete true
    if cfg.catalog ∧ cfg.append ∧ cfg.python_file ≠ ['-'] then
      match fs with
      | none => ⟨none, [], [], temp, .raised⟩
      | some content =>
        let scanned := scanLines (pyLines content) true []
        let content2 := if scanned.1 then content ++ catalogStartBlock else content
        writeStep cfg data scanned.2 (some content2) temp
    else
      writeStep cfg data [] fs temp

/-- Substring test. -/
def containsSub (pat : List Char) : List Char → Bool
  | [] => pat.isPrefixOf []
  | c :: rest => pat.isPrefixOf (c :: rest) || containsSub pat rest

/-- Append+catalog configuration embedding name `a`. -/
def cfgA : Config :=
  ⟨true, true, false, false, chars "a.png", chars "out.py", chars "a", chars "img2py.py", none⟩

/-- Append+catalog configuration embedding name `b`. -/
def cfgB : Config :=
  ⟨true, true, false, false, chars "b.png", chars "out.py", chars "b", chars "img2py.py", none⟩

/-- First append+catalog invocation against an existing empty artifact. -/
def runA : RunResult := img2py cfgA (.ok [1, 2, 3]) (some [])

/-- Second invocation against the artifact left by `runA`. -/
def runB : RunResult := img2py cfgB (.ok [1, 2, 3]) runA.file

/-- The separator line without its terminating newline. -/
def sepBody : List Char := '#' :: List.replicate 70 '-'

/-- The identifier-assignment line fragment between the identifier and
the newline. -/
def asgBody : List Char := chars " = PyEmbeddedImage("

/-- The index-registration line without its terminating newline. -/
def ixPre (name : List Char) : List Char :=
  chars "index.append(" ++ ([qc] ++ (name ++ [qc, ')']))

/-- The catalog-mapping line without its terminating newline. -/
def catPre (name varName : List Char) : List Char :=
  chars "catalog[" ++ ([qc] ++ (name ++ ([qc] ++ (chars "] = " ++ varName))))

theorem b64value_b64char : ∀ v : Nat, v < 64 → b64value (b64char v) = some v := by decide

theorem b64value_pad : b64value '=' = none := by decide

theorem b64char_ne_pad (v : Nat) (h : v < 64) : b64char v ≠ '=' := by
  intro hc
  have hv := b64value_b64char v h
  rw [hc, b64value_pad] at hv
  exact Option.noConfusion hv

theorem b64encode_ne_nil (B : List Nat) (h : B ≠ []) : b64encode B ≠ [] := by
  match B with
  | [] => exact absurd rfl h
  | [b1] => simp [b64encode]
  | [b1, b2] => simp [b64encode]
  | b1 :: b2 :: b3 :: rest => simp [b64encode]

theorem b64_roundtrip_aux : ∀ (n : Nat) (B : List Nat), B.length ≤ n →
    (∀ b ∈ B, b < 256) → b64decode (b64encode B) = some B := by
  intro n
  induction n with
  | zero =>
    intro B hlen _
    have hB : B = [] := List.eq_nil_of_length_eq_zero (Nat.le_zero.mp hlen)
    subst hB; rfl
  | succ n ih =>
    intro B hlen hb
    match B with
    | [] => rfl
    | [b1] =>
      have h1 : b1 < 256 := hb b1 (by simp)
      have e1 := b64value_b64char (b1 / 4) (by omega)
      have e2 := b64value_b64char (b1 % 4 * 16) (by omega)
      simp [b64encode, b64decode, b64decodeLast, e1, e2]
      omega
    | [b1, b2] =>
      have h1 : b1 < 256 := hb b1 (by simp)
      have h2 : b2 < 256 := hb b2 (by simp)
      have e1 := b64value_b64char (b1 / 4) (by omega)
      have e2 := b64value_b64char (b1 % 4 * 16 + b2 / 16) (by omega)
      have e3 := b64value_b64char (b2 % 16 * 4) (by omega)
      simp [b64encode, b64decode, b64decodeLast, e1, e2, e3,
        b64char_ne_pad (b2 % 16 * 4) (by omega)]
      omega
    | b1 :: b2 :: b3 :: rest =>
      have h1 : b1 < 256 := hb b1 (by simp)
      have h2 : b2 < 256 := hb b2 (by simp)
      have h3 : b3 < 256 := hb b3 (by simp)
      have e1 := b64value_b64char (b1 / 4) (by omega)
      have e2 := b64value_b64char (b1 % 4 * 16 + b2 / 16) (by omega)
      have e3 := b64value_b64char (b2 % 16 * 4 + b3 / 64) (by omega)
      have e4 := b64value_b64char (b3 % 64) (by omega)
      by_cases hr : rest = []
      · subst hr
        simp [b64encode, b64decode, b64decodeLast, e1, e2, e3, e4,
          b64char_ne_pad (b2 % 16 * 4 + b3 / 64) (by omega),
          b64char_ne_pad (b3 % 64) (by omega)]
        omega
      · have hlen2 : rest.length ≤ n := by
          simp only [List.length_cons] at hlen; omega
        have hrest := ih rest hlen2 (fun b hm => hb b (by simp [hm]))
        have hne : b64encode rest ≠ [] := b64encode_ne_nil rest hr
        simp [b64encode, b64decode, hne, e1, e2, e3, e4, hrest]
        omega

theorem b64_roundtrip (B : List Nat) (hB : ∀ b ∈ B, b < 256) :
    b64decode (b64encode B) = some B :=
  b64_roundtrip_aux B.length B (Nat.le_refl _) hB

theorem drop4_indent (x : List Char) : (indent4 ++ x).drop 4 = x := rfl

theorem getLast?_bytesRepr (p : List Char) : (bytesRepr p).getLast? = some qc := by
  unfold bytesRepr
  rw [show 'b' :: qc :: (p ++ [qc]) = ('b' :: qc :: p) ++ [qc] by simp]
  exact List.getLast?_concat _

theorem chunkContent_mid (p : List Char) :
    chunkContent (indent4 ++ bytesRepr p) = p := by
  simp only [chunkContent, drop4_indent, getLast?_bytesRepr]
  rw [if_neg (by decide : ¬ ((some qc : Option Char) = some ')'))]
  show (p ++ [qc]).dropLast = p
  exact List.dropLast_concat

theorem chunkContent_last (p : List Char) :
    chunkContent (indent4 ++ (bytesRepr p ++ [')'])) = p := by
  simp only [chunkContent, drop4_indent]
  rw [List.getLast?_concat, if_pos rfl, List.dropLast_concat]
  show (p ++ [qc]).dropLast = p
  exact List.dropLast_concat

theorem mkLinesGo_flatten : ∀ (n : Nat) (s : List Char), s.length ≤ n →
    ((mkLinesGo n s).map chunkContent).flatten = s := by
  intro n
  induction n with
  | zero =>
    intro s hlen
    have hs : s = [] := List.eq_nil_of_length_eq_zero (Nat.le_zero.mp hlen)
    subst hs; rfl
  | succ n ih =>
    intro s hlen
    match s with
    | [] => rfl
    | c :: cs =>
      show ((mkLinesGo (n + 1) (c :: cs)).map chunkContent).flatten = c :: cs
      simp only [mkLinesGo]
      by_cases hr : (c :: cs).drop 72 = []
      · rw [if_pos hr]
        simp only [List.map_cons, List.map_nil, List.flatten_cons, List.flatten_nil,
          chunkContent_last, List.append_nil]
        have htd := List.take_append_drop 72 (c :: cs)
        rw [hr, List.append_nil] at htd
        exact htd
      · rw [if_neg hr]
        have hlen2 : ((c :: cs).drop 72).length ≤ n := by
          rw [List.length_drop]
          simp only [List.length_cons] at hlen ⊢
          omega
        simp only [List.map_cons, List.flatten_cons, chunkContent_mid, ih _ hlen2]
        exact List.take_append_drop 72 (c :: cs)

theorem payload_flatten (B : List Nat) :
    ((payloadLines B).map chunkContent).flatten = b64encode B :=
  mkLinesGo_flatten _ _ (Nat.le_refl _)

/-- C1 (amended): for every byte sequence B, base64-decoding the
concatenated chunk contents of the EncodedPayload produced by `img2py`
from B — each chunk stripped of its 4-space indentation, of its
bytes-literal delimiters (the `b` + quote prefix and the quote suffix),
and the final chunk of its appended `)` terminator, the newlines joining
chunks removed — reproduces B exactly. -/
theorem C1_payload_roundtrip (B : List Nat) (hB : ∀ b ∈ B, b < 256) :
    b64decode (((payloadLines B).map chunkContent).flatten) = some B := by
  rw [payload_flatten]
  exact b64_roundtrip B hB

theorem C1_payload_roundtrip_witness :
    (∀ b ∈ [1, 2, 3], b < 256) ∧
      b64decode (((payloadLines [1, 2, 3]).map chunkContent).flatten) = some [1, 2, 3] :=
  ⟨by decide, C1_payload_roundtrip [1, 2, 3] (by decide)⟩

/-- C1 (counterexample): at B = [65] the payload is the single chunk
`    b` + quote + `QQ==` + quote + `)`; stripping only the indentation,
the joining newlines and the `)` terminator — as the claim words it —
leaves the bytes-literal delimiters in place, and the result does not
base64-decode to [65]. -/
theorem C1_claimed_strip_fails :
    b64decode (specClaimedStrip [65]) ≠ some [65] := by decide

/-- C5 (counterexample): encoding the empty byte sequence produces no
chunk at all — the chunk list is empty, not a single chunk bearing only
the terminator. -/
theorem C5_no_terminator_chunk : (payloadLines []).length ≠ 1 := by decide

/-- C5 (amended): encoding the empty byte sequence cannot fail and yields
an empty payload: no chunks, hence no line and no `)` terminator. -/
theorem C5_empty_payload : payloadLines [] = [] ∧ payloadText [] = [] := by decide

theorem sanitize_sound (N : List Char) (hN : N ≠ []) :
    ∃ v, _replace_non_alphanumeric_with_underscore N = some v ∧
      (∀ c ∈ v, c.isAlphanum ∨ c = '_') ∧
      ∃ c0 cs, v = c0 :: cs ∧ (c0.isAlpha ∨ c0 = '_') := by
  match N with
  | [] => exact absurd rfl hN
  | a :: as =>
    simp only [_replace_non_alphanumeric_with_underscore, List.map_cons]
    set l0 := if a.isAlphanum then a else '_' with hl0
    set ls := as.map (fun letter => if letter.isAlphanum then letter else '_') with hls
    have hmem : ∀ c ∈ l0 :: ls, c.isAlphanum ∨ c = '_' := by
      intro c hc
      rcases List.mem_cons.mp hc with h | h
      · subst h
        rw [hl0]
        by_cases ha : a.isAlphanum
        · rw [if_pos ha]; exact Or.inl ha
        · rw [if_neg ha]; exact Or.inr rfl
      · rw [hls] at h
        rcases List.mem_map.mp h with ⟨x, _, hx⟩
        by_cases hxa : x.isAlphanum
        · rw [if_pos hxa] at hx; subst hx; exact Or.inl hxa
        · rw [if_neg hxa] at hx; subst hx; exact Or.inr rfl
    by_cases hcond : ¬ l0.isAlpha ∧ l0 ≠ '_'
    · rw [if_pos hcond]
      refine ⟨'_' :: l0 :: ls, rfl, ?_, '_', l0 :: ls, rfl, Or.inr rfl⟩
      intro c hc
      rcases List.mem_cons.mp hc with h | h
      · subst h; exact Or.inr rfl
      · exact hmem c h
    · rw [if_neg hcond]
      refine ⟨l0 :: ls, rfl, hmem, l0, ls, rfl, ?_⟩
      push_neg at hcond
      by_cases hA : l0.isAlpha
      · exact Or.inl hA
      · exact Or.inr (hcond hA)

/-- C4 (amended): for every nonempty logical name N the sanitizer
succeeds and the derived identifier contains only alphanumerics and
underscores, with a first character that is a letter or underscore.  (On
the empty name the source raises `IndexError`; see the counterexample.) -/
theorem C4_sanitizer_valid (N : List Char) (hN : N ≠ []) :
    ∃ v, _replace_non_alphanumeric_with_underscore N = some v ∧
      (∀ c ∈ v, c.isAlphanum ∨ c = '_') ∧
      ∃ c0 cs, v = c0 :: cs ∧ (c0.isAlpha ∨ c0 = '_') :=
  sanitize_sound N hN

theorem C4_sanitizer_valid_witness :
    chars "2-b!" ≠ [] ∧
      ∃ v, _replace_non_alphanumeric_with_underscore (chars "2-b!") = some v ∧
        (∀ c ∈ v, c.isAlphanum ∨ c = '_') ∧
        ∃ c0 cs, v = c0 :: cs ∧ (c0.isAlpha ∨ c0 = '_') :=
  ⟨by decide, C4_sanitizer_valid (chars "2-b!") (by decide)⟩

/-- C4 (counterexample): on the empty logical name the sanitizer indexes
`letters[0]` of an empty list and raises `IndexError` — the function is
not total and no identifier is derived. -/
theorem C4_empty_name_crashes : _replace_non_alphanumeric_with_underscore [] = none := rfl

/-- C9: when the source path already ends in the canonical target
extension (case-insensitively) and no transparency override is given,
`convert` bypasses the external codec, the destination bytes equal the
source bytes exactly, and the call returns success `(True, "ok")`. -/
theorem C9_fast_path (fileName : List Char) (srcBytes : List Nat)
    (h : ((chars ".png").map Char.toUpper).isSuffixOf (fileName.map Char.toUpper)) :
    convert fileName none (chars ".png") srcBytes = some (srcBytes, true, chars "ok") := by
  unfold convert
  rw [if_pos ⟨rfl, h⟩]

theorem C9_fast_path_witness :
    (((chars ".png").map Char.toUpper).isSuffixOf ((chars "logo.PNG").map Char.toUpper)) = true ∧
      convert (chars "logo.PNG") none (chars ".png") [1, 2, 3] =
        some ([1, 2, 3], true, chars "ok") :=
  ⟨by decide, C9_fast_path (chars "logo.PNG") [1, 2, 3] (by decide)⟩

theorem writeStep_temp (cfg : Config) (data : List Char) (idx : List (List Char))
    (fs : Option (List Char)) (t : Bool) : (writeStep cfg data idx fs t).tempExists = t := by
  unfold writeStep
  by_cases hstd : cfg.python_file = ['-']
  · rw [if_pos hstd]
    rcases h : _write_image cfg.imgName data cfg.append cfg.icon cfg.catalog
        cfg.functionCompatible idx cfg.argv0 with ⟨text, o⟩
    cases o <;> rfl
  · rw [if_neg hstd]
    rcases h : _write_image cfg.imgName data cfg.append cfg.icon cfg.catalog
        cfg.functionCompatible idx cfg.argv0 with ⟨text, o⟩
    cases o <;> rfl

/-- C3: the temporary conversion file is deleted on every exit path of
the conversion phase — success, codec failure, or unexpected error — and
on codec failure nothing is written to the target artifact or to
standard output: the invocation prints the codec's message and returns
normally, leaving the artifact exactly as it was. -/
theorem C3_cleanup_and_no_write :
    (∀ cfg codec fs, (img2py cfg codec fs).tempExists = false) ∧
    (∀ cfg msg fs, (img2py cfg (CodecResult.fail msg) fs).file = fs ∧
      (img2py cfg (CodecResult.fail msg) fs).stdoutText = [] ∧
      (img2py cfg (CodecResult.fail msg) fs).printed = [msg] ∧
      (img2py cfg (CodecResult.fail msg) fs).outcome = Outcome.returned) := by
  constructor
  · intro cfg codec fs
    cases codec with
    | exn => rfl
    | fail msg => rfl
    | ok bytes =>
      simp only [img2py]
      split
      · split
        · rfl
        · rw [writeStep_temp]; rfl
      · rw [writeStep_temp]; rfl
  · intro cfg msg fs
    exact ⟨rfl, rfl, rfl, rfl⟩

theorem takeWhile_no_nl (l : List Char) (h : '\n' ∉ l) (t : List Char) :
    (l ++ '\n' :: t).takeWhile (fun d => d != '\n') = l := by
  induction l with
  | nil => simp [List.takeWhile_cons]
  | cons c cs ih =>
    have hc : c ≠ '\n' := fun hh => h (hh ▸ List.mem_cons_self _ _)
    have h2 : '\n' ∉ cs := fun hh => h (List.mem_cons_of_mem _ hh)
    simp only [List.cons_append, List.takeWhile_cons]
    rw [if_pos (by simp [hc]), ih h2]

theorem lastQPaux_clean (N : List Char) (hq : qc ∉ N) :
    lastQPaux (N ++ [qc, ')']) = some N := by
  induction N with
  | nil => decide
  | cons c cs ih =>
    have h2 : qc ∉ cs := fun hh => hq (List.mem_cons_of_mem _ hh)
    show lastQPaux (c :: (cs ++ [qc, ')'])) = some (c :: cs)
    simp only [lastQPaux, ih h2]

theorem indexLine_cons (N : List Char) :
    indexLine N =
      'i':: 'n':: 'd':: 'e':: 'x':: '.':: 'a':: 'p':: 'p':: 'e':: 'n':: 'd':: '('::qc::
        (N ++ [qc, ')', '\n']) := rfl

theorem dropWhile_i (t : List Char) : ('i' :: t).dropWhile isPySpace = 'i' :: t := rfl

theorem ipf_index (t : List Char) :
    (chars "index").isPrefixOf ('i':: 'n':: 'd':: 'e':: 'x'::t) = true := by
  simp only [show chars "index" = 'i':: 'n':: 'd':: 'e':: 'x'::([] : List Char) from rfl,
    List.isPrefixOf_cons₂, List.isPrefixOf_nil_left, beq_self_eq_true, Bool.true_and]

theorem ipf_appendq (t : List Char) :
    ((chars "append(") ++ [qc]).isPrefixOf ('a':: 'p':: 'p':: 'e':: 'n':: 'd':: '('::qc::t) = true := by
  simp only [show (chars "append(") ++ [qc] =
      'a':: 'p':: 'p':: 'e':: 'n':: 'd':: '('::qc::([] : List Char) from rfl,
    List.isPrefixOf_cons₂, List.isPrefixOf_nil_left, beq_self_eq_true, Bool.true_and]

theorem indexPatternMatch_indexLine (N : List Char) (hN : N ≠ []) (hq : qc ∉ N)
    (hn : '\n' ∉ N) : indexPatternMatch (indexLine N) = some N := by
  rw [indexLine_cons]
  simp only [indexPatternMatch, dropWhile_i]
  rw [if_pos ?hcond]
  case hcond =>
    refine ⟨?_, ?_, ?_⟩
    · show (chars "index").isPrefixOf
        ('i':: 'n':: 'd':: 'e':: 'x'::('.':: 'a':: 'p':: 'p':: 'e':: 'n':: 'd':: '('::qc::
          (N ++ [qc, ')', '\n']))) = true
      exact ipf_index _
    · show ('.' : Char) ≠ '\n'
      decide
    · show ((chars "append(") ++ [qc]).isPrefixOf
        ('a':: 'p':: 'p':: 'e':: 'n':: 'd':: '('::qc::(N ++ [qc, ')', '\n'])) = true
      exact ipf_appendq _
  have harg : (N ++ [qc, ')', '\n']).takeWhile (fun d => d != '\n') = N ++ [qc, ')'] := by
    have h2 : N ++ [qc, ')', '\n'] = (N ++ [qc, ')']) ++ '\n' :: [] := by simp
    rw [h2]
    refine takeWhile_no_nl _ ?_ []
    intro hmem
    rcases List.mem_append.mp hmem with h | h
    · exact hn h
    · revert h; decide
  rw [show List.drop 14
      ('i':: 'n':: 'd':: 'e':: 'x':: '.':: 'a':: 'p':: 'p':: 'e':: 'n':: 'd':: '('::qc::
        (N ++ [qc, ')', '\n'])) = N ++ [qc, ')', '\n'] from rfl]
  rw [harg, lastQPaux_clean N hq]
  show (if N = [] then none else some N) = some N
  rw [if_neg hN]

theorem scanLines_false (ls : List (List Char)) : ∀ idx, (scanLines ls false idx).1 = false := by
  induction ls with
  | nil => intro idx; rfl
  | cons l rest ih =>
    intro idx
    simp only [scanLines]
    by_cases hl : l = catalogLine
    · rw [if_pos hl]; exact ih _
    · rw [if_neg hl]
      rcases hm : indexPatternMatch l with _ | n
      · exact ih _
      · exact ih _

theorem scanLines_fst (ls : List (List Char)) : ∀ (ac : Bool) (idx : List (List Char)),
    catalogLine ∈ ls → (scanLines ls ac idx).1 = false := by
  induction ls with
  | nil => intro ac idx h; exact absurd h (List.not_mem_nil _)
  | cons l rest ih =>
    intro ac idx h
    simp only [scanLines]
    by_cases hl : l = catalogLine
    · rw [if_pos hl]; exact scanLines_false rest idx
    · rw [if_neg hl]
      have hr : catalogLine ∈ rest := by
        rcases List.mem_cons.mp h with h0 | h0
        · exact absurd h0.symm hl
        · exact h0
      rcases hm : indexPatternMatch l with _ | n
      · exact ih ac idx hr
      · exact ih ac (idx ++ [n]) hr

theorem scanLines_snd (ls : List (List Char)) : ∀ (ac : Bool) (idx : List (List Char)),
    (scanLines ls ac idx).2 = idx ++ lineNames ls := by
  induction ls with
  | nil => intro ac idx; simp [scanLines, lineNames]
  | cons l rest ih =>
    intro ac idx
    simp only [scanLines, lineNames, List.filterMap_cons]
    by_cases hl : l = catalogLine
    · rw [if_pos hl]
      simp only [hl, if_pos rfl]
      exact ih false idx
    · rw [if_neg hl]
      simp only [if_neg hl]
      rcases hm : indexPatternMatch l with _ | n
      · exact ih ac idx
      · rw [ih ac (idx ++ [n])]
        simp [lineNames]

theorem indexLine_ne_catalogLine (N : List Char) : indexLine N ≠ catalogLine := by
  intro h
  rw [indexLine_cons] at h
  have h0 : ('i' : Char) = 'c' := congrArg (fun l => l.headD ' ') h
  exact absurd h0 (by decide)

theorem lineNames_indexLines (Ns : List (List Char))
    (hNs : ∀ N ∈ Ns, N ≠ [] ∧ qc ∉ N ∧ '\n' ∉ N) :
    lineNames (Ns.map indexLine) = Ns := by
  induction Ns with
  | nil => rfl
  | cons N rest ih =>
    have hN := hNs N (List.mem_cons_self _ _)
    simp only [List.map_cons, lineNames, List.filterMap_cons]
    rw [if_neg (indexLine_ne_catalogLine N),
      indexPatternMatch_indexLine N hN.1 hN.2.1 hN.2.2]
    show N :: lineNames (rest.map indexLine) = N :: rest
    rw [ih (fun M hM => hNs M (List.mem_cons_of_mem _ hM))]

/-- C10 (counterexample): for the empty logical name (which contains no
quote and no newline) the written line is `index.append(` + two quotes +
`)`, and the reconciler's pattern does not match it at all — the greedy
group `(.+)` requires at least one character — so no name is extracted,
let alone the empty one. -/
theorem C10_empty_name_not_matched : indexPatternMatch (indexLine []) = none := by decide

/-- C10 (amended): for every nonempty logical name N containing no
single-quote and no newline, the index-registration line the emitter
writes for N is matched by the reconciler's index pattern, which
extracts exactly N; scanning a sequence of such lines appends the names
to the known-names accumulator in the order the lines were written. -/
theorem C10_index_roundtrip :
    (∀ N : List Char, N ≠ [] → qc ∉ N → '\n' ∉ N →
      indexPatternMatch (indexLine N) = some N) ∧
    (∀ Ns : List (List Char), (∀ N ∈ Ns, N ≠ [] ∧ qc ∉ N ∧ '\n' ∉ N) →
      ∀ (ac : Bool) (idx : List (List Char)),
        (scanLines (Ns.map indexLine) ac idx).2 = idx ++ Ns) := by
  constructor
  · exact indexPatternMatch_indexLine
  · intro Ns hNs ac idx
    rw [scanLines_snd, lineNames_indexLines Ns hNs]

theorem C10_index_roundtrip_witness :
    (chars "ab" ≠ [] ∧ qc ∉ chars "ab" ∧ '\n' ∉ chars "ab") ∧
      indexPatternMatch (indexLine (chars "ab")) = some (chars "ab") ∧
      (scanLines ([chars "ab", chars "cd"].map indexLine) true []).2 =
        [] ++ [chars "ab", chars "cd"] :=
  ⟨by decide,
   C10_index_roundtrip.1 (chars "ab") (by decide) (by decide) (by decide),
   C10_index_roundtrip.2 [chars "ab", chars "cd"] (by decide) true []⟩

/-- C2 (counterexample): with append mode, catalog mode and a real file
target selected but the artifact absent, the reconciliation opens the
artifact for reading and raises an uncaught `FileNotFoundError`: the
invocation fails and nothing is created or written. -/
theorem C2_missing_artifact_raises :
    (img2py cfgA (.ok [1, 2, 3]) none).outcome = Outcome.raised ∧
      (img2py cfgA (.ok [1, 2, 3]) none).file = none := by decide

/-- C2 (amended): append+catalog against a missing artifact raises an
uncaught file-open error instead of creating scaffolding; when the
artifact already exists (here: empty), two successive append+catalog
invocations with names `a` then `b` complete normally and yield exactly
one scaffolding block, two records, and index order [a, b]. -/
theorem C2_fresh_scenario :
    (img2py cfgA (.ok [1, 2, 3]) none).outcome = Outcome.raised ∧
    runA.outcome = Outcome.returned ∧ runB.outcome = Outcome.returned ∧
    List.count catalogLine (pyLines (runB.file.getD [])) = 1 ∧
    List.count sepLine (pyLines (runB.file.getD [])) = 2 ∧
    (scanLines (pyLines (runB.file.getD [])) true []).2 = [chars "a", chars "b"] := by
  decide

/-- C6 (counterexample): the first record of a fresh artifact written in
append+catalog mode (no prior scaffolding found) receives neither the
generated-file header comment nor the import statement — only the
catalog scaffolding block is appended before the record. -/
theorem C6_append_no_header :
    runA.outcome = Outcome.returned ∧
    containsSub importStmt (runA.file.getD []) = false ∧
    containsSub (chars "# This file was generated by") (runA.file.getD []) = false ∧
    containsSub catalogLine (runA.file.getD []) = true := by decide

/-- C6 (amended): only in overwrite mode does the emitter write the
generated-file header comment, then the import statement, then — iff
catalog mode is enabled — the catalog scaffolding, before the record; in
append mode the identifier assignment follows the separator directly,
with no header, import or scaffolding emitted by `_write_image`. -/
theorem C6_fresh_header_layout (N data : List Char) (icon cat fc : Bool)
    (idx : List (List Char)) (argv0 : List Char) (hN : N ≠ []) :
    (∃ rest, (_write_image N data false icon cat fc idx argv0).1 =
      sepLine ++ (headerText argv0 ++ (importText ++
        ((if cat then scaffoldText else []) ++ rest)))) ∧
    (∃ v rest, _replace_non_alphanumeric_with_underscore N = some v ∧
      (_write_image N data true icon cat fc idx argv0).1 =
        sepLine ++ (assignText v data ++ rest)) := by
  obtain ⟨v, hv, -, -⟩ := sanitize_sound N hN
  constructor
  · refine ⟨assignText v data ++ ((if cat then indexLine N ++ catLine N v else []) ++
      ((if fc then funcText v icon else []) ++ ['\n'])), ?_⟩
    simp only [_write_image, hv]
    simp [List.append_assoc]
  · refine ⟨v, (if cat then indexLine N ++ catLine N v else []) ++
      ((if fc then funcText v icon else []) ++ ['\n']), hv, ?_⟩
    simp only [_write_image, hv]
    simp [List.append_assoc]

theorem C6_fresh_header_layout_witness :
    chars "a" ≠ [] ∧
      ((∃ rest, (_write_image (chars "a") (chars "x") false false true false [] (chars "p")).1 =
        sepLine ++ (headerText (chars "p") ++ (importText ++
          ((if true then scaffoldText else []) ++ rest)))) ∧
       (∃ v rest, _replace_non_alphanumeric_with_underscore (chars "a") = some v ∧
        (_write_image (chars "a") (chars "x") true false true false [] (chars "p")).1 =
          sepLine ++ (assignText v (chars "x") ++ rest))) :=
  ⟨by decide,
   C6_fresh_header_layout (chars "a") (chars "x") false true false [] (chars "p") (by decide)⟩

theorem sepLine_eq : sepLine = sepBody ++ ['\n'] := rfl

theorem indexLine_eq (N : List Char) : indexLine N = ixPre N ++ ['\n'] := by
  simp [indexLine, ixPre, List.append_assoc]

theorem catLine_eq (N v : List Char) : catLine N v = catPre N v ++ ['\n'] := by
  simp [catLine, catPre, List.append_assoc]

theorem assignText_eq (v data : List Char) :
    assignText v data = (v ++ asgBody) ++ '\n' :: (data ++ ['\n']) := by
  have h : chars " = PyEmbeddedImage(\n" = asgBody ++ ['\n'] := by decide
  simp [assignText, h, List.append_assoc]

theorem pyLines_ne_nil (s : List Char) (h : s ≠ []) : pyLines s ≠ [] := by
  match s with
  | [] => exact absurd rfl h
  | c :: rest =>
    simp only [pyLines]
    by_cases hc : c = '\n'
    · rw [if_pos hc]; simp
    · rw [if_neg hc]
      rcases hp : pyLines rest with _ | ⟨l, ls⟩ <;> simp

theorem pyLines_line_cons (x : List Char) (hx : '\n' ∉ x) (b : List Char) :
    pyLines (x ++ '\n' :: b) = (x ++ ['\n']) :: pyLines b := by
  induction x with
  | nil => simp [pyLines]
  | cons c cs ih =>
    have hc : c ≠ '\n' := fun h => hx (h ▸ List.mem_cons_self _ _)
    have h2 : '\n' ∉ cs := fun h => hx (List.mem_cons_of_mem _ h)
    simp only [List.cons_append, pyLines, List.append_eq]
    rw [if_neg hc, ih h2]

theorem pyLines_nonl (a : List Char) : a ≠ [] → '\n' ∉ a → pyLines a = [a] := by
  induction a with
  | nil => intro h; exact absurd rfl h
  | cons c cs ih =>
    intro _ hnl
    have hc : c ≠ '\n' := fun h => hnl (h ▸ List.mem_cons_self _ _)
    have h2 : '\n' ∉ cs := fun h => hnl (List.mem_cons_of_mem _ h)
    simp only [pyLines]
    rw [if_neg hc]
    rcases hcs : cs with _ | ⟨d, cs2⟩
    · rfl
    · rw [show pyLines (d :: cs2) = [d :: cs2] from hcs ▸ ih (by simp [hcs]) (hcs ▸ h2)]

theorem pyLines_cons_ne (c : Char) (hc : c ≠ '\n') (rest : List Char) :
    pyLines (c :: rest) = (match pyLines rest with
      | [] => [[c]]
      | l :: ls => (c :: l) :: ls) := by
  simp only [pyLines]
  rw [if_neg hc]

theorem pyLines_nonl_append (a : List Char) : '\n' ∉ a → a ≠ [] → ∀ b : List Char, b ≠ [] →
    pyLines (a ++ b) = (a ++ (pyLines b).headD []) :: (pyLines b).tail := by
  induction a with
  | nil => intro _ h; exact absurd rfl h
  | cons c cs ih =>
    intro hnl _ b hb
    have hc : c ≠ '\n' := fun h => hnl (h ▸ List.mem_cons_self _ _)
    have h2 : '\n' ∉ cs := fun h => hnl (List.mem_cons_of_mem _ h)
    cases cs with
    | nil =>
      obtain ⟨l, ls, hp⟩ := List.exists_cons_of_ne_nil (pyLines_ne_nil b hb)
      simp only [List.cons_append, List.nil_append]
      rw [pyLines_cons_ne c hc b, hp]
      simp
    | cons d cs2 =>
      have ih2 := ih h2 (by simp) b hb
      simp only [List.cons_append] at ih2 ⊢
      rw [pyLines_cons_ne c hc _, ih2]

theorem split_first_nl (a : List Char) :
    '\n' ∉ a ∨ ∃ x y, a = x ++ '\n' :: y ∧ '\n' ∉ x := by
  induction a with
  | nil => left; simp
  | cons c a2 ih =>
    by_cases hc : c = '\n'
    · right; exact ⟨[], a2, by rw [hc]; rfl, by simp⟩
    · rcases ih with h | ⟨x, y, hxy, hx⟩
      · left
        intro hm
        rcases List.mem_cons.mp hm with h0 | h0
        · exact hc h0.symm
        · exact h h0
      · right
        refine ⟨c :: x, y, by rw [hxy]; rfl, ?_⟩
        intro hm
        rcases List.mem_cons.mp hm with h0 | h0
        · exact hc h0.symm
        · exact hx h0

theorem pyLines_sep_cons (t : List Char) :
    pyLines (sepLine ++ t) = sepLine :: pyLines t := by
  have h1 : sepLine ++ t = sepBody ++ '\n' :: t := by
    rw [sepLine_eq]; simp
  rw [h1, pyLines_line_cons sepBody (by decide) t, ← sepLine_eq]

theorem count_pyLines_sep_append (L : List Char) (hLnl : '\n' ∈ L)
    (hmerge : ∀ x : List Char, x ++ sepLine ≠ L) (t : List Char) :
    ∀ (n : Nat) (a : List Char), a.length ≤ n →
      List.count L (pyLines (a ++ (sepLine ++ t))) =
        List.count L (pyLines a) + List.count L (pyLines (sepLine ++ t)) := by
  intro n
  induction n with
  | zero =>
    intro a hlen
    have ha : a = [] := List.eq_nil_of_length_eq_zero (Nat.le_zero.mp hlen)
    subst ha
    simp [pyLines]
  | succ n ih =>
    intro a hlen
    rcases split_first_nl a with hnl | ⟨x, y, hxy, hx⟩
    · by_cases hae : a = []
      · subst hae; simp [pyLines]
      · rw [pyLines_nonl_append a hnl hae _ (by rw [sepLine_eq]; simp),
          pyLines_sep_cons, pyLines_nonl a hae hnl]
        simp only [List.headD_cons, List.tail_cons]
        rw [List.count_cons, List.count_cons, List.count_cons, List.count_nil]
        have h1 : a ++ sepLine ≠ L := hmerge a
        have h2 : sepLine ≠ L := by simpa using hmerge []
        have h3 : a ≠ L := fun h => hnl (h.symm ▸ hLnl)
        simp [h1, h2, h3]
    · subst hxy
      have hy : y.length ≤ n := by
        simp only [List.length_append, List.length_cons] at hlen; omega
      have assoc1 : (x ++ '\n' :: y) ++ (sepLine ++ t) =
          x ++ '\n' :: (y ++ (sepLine ++ t)) := by simp
      rw [assoc1, pyLines_line_cons x hx, pyLines_line_cons x hx,
        List.count_cons, List.count_cons, ih y hy]
      omega

theorem b64char_mem (n : Nat) : b64char n ∈ b64alphabet := by
  unfold b64char
  rw [List.getD_eq_getElem?_getD]
  by_cases h : n < b64alphabet.length
  · rw [List.getElem?_eq_getElem h]
    simp
  · rw [List.getElem?_eq_none (Nat.le_of_not_lt h)]
    decide

theorem mem_b64encode : ∀ (n : Nat) (B : List Nat), B.length ≤ n →
    ∀ c ∈ b64encode B, c ∈ b64alphabet ∨ c = '=' := by
  intro n
  induction n with
  | zero =>
    intro B hlen c hc
    have hB : B = [] := List.eq_nil_of_length_eq_zero (Nat.le_zero.mp hlen)
    subst hB
    simp [b64encode] at hc
  | succ n ih =>
    intro B hlen c hc
    match B with
    | [] => simp [b64encode] at hc
    | [b1] =>
      simp only [b64encode, List.mem_cons, List.not_mem_nil, or_false] at hc
      rcases hc with h | h | h | h
      · exact Or.inl (h ▸ b64char_mem _)
      · exact Or.inl (h ▸ b64char_mem _)
      · exact Or.inr h
      · exact Or.inr h
    | [b1, b2] =>
      simp only [b64encode, List.mem_cons, List.not_mem_nil, or_false] at hc
      rcases hc with h | h | h | h
      · exact Or.inl (h ▸ b64char_mem _)
      · exact Or.inl (h ▸ b64char_mem _)
      · exact Or.inl (h ▸ b64char_mem _)
      · exact Or.inr h
    | b1 :: b2 :: b3 :: rest =>
      simp only [b64encode, List.mem_cons] at hc
      rcases hc with h | h | h | h | h
      · exact Or.inl (h ▸ b64char_mem _)
      · exact Or.inl (h ▸ b64char_mem _)
      · exact Or.inl (h ▸ b64char_mem _)
      · exact Or.inl (h ▸ b64char_mem _)
      · exact ih rest (by simp only [List.length_cons] at hlen; omega) c h

theorem b64encode_no_nl (B : List Nat) : '\n' ∉ b64encode B := by
  intro h
  rcases mem_b64encode B.length B (Nat.le_refl _) '\n' h with h1 | h1
  · revert h1; decide
  · exact absurd h1 (by decide)

theorem mkLinesGo_props : ∀ (n : Nat) (s : List Char), '\n' ∉ s →
    ∀ l ∈ mkLinesGo n s, l.headD ' ' = ' ' ∧ '\n' ∉ l ∧ l ≠ [] := by
  intro n
  induction n with
  | zero =>
    intro s hs l hl
    cases s <;> simp [mkLinesGo] at hl
  | succ n ih =>
    intro s hs l hl
    match s with
    | [] => simp [mkLinesGo] at hl
    | c :: cs =>
      have hpart : '\n' ∉ (c :: cs).take 72 := fun hm => hs (List.take_subset _ _ hm)
      have hline : ∀ f, (f = ([] : List Char) ∨ f = [')']) →
          '\n' ∉ indent4 ++ (bytesRepr ((c :: cs).take 72) ++ f) := by
        intro f hf hm
        rcases List.mem_append.mp hm with h1 | h2
        · revert h1; decide
        · rcases List.mem_append.mp h2 with h3 | h4
          · rcases List.mem_cons.mp h3 with h5 | h5
            · revert h5; decide
            · rcases List.mem_cons.mp h5 with h6 | h6
              · revert h6; decide
              · rcases List.mem_append.mp h6 with h7 | h7
                · exact hpart h7
                · revert h7; decide
          · rcases hf with rfl | rfl
            · simp at h4
            · rcases List.mem_cons.mp h4 with h8 | h8
              · revert h8; decide
              · simp at h8
      simp only [mkLinesGo] at hl
      by_cases hr : (c :: cs).drop 72 = []
      · rw [if_pos hr] at hl
        simp only [List.mem_singleton] at hl
        subst hl
        refine ⟨rfl, ?_, by simp [indent4, chars]⟩
        have := hline [')'] (Or.inr rfl)
        simpa [List.append_assoc] using this
      · rw [if_neg hr] at hl
        rcases List.mem_cons.mp hl with h0 | h0
        · subst h0
          refine ⟨rfl, ?_, by simp [indent4, chars]⟩
          have := hline [] (Or.inl rfl)
          simpa using this
        · exact ih ((c :: cs).drop 72) (fun hm => hs (List.drop_subset _ _ hm)) l h0

theorem payload_line_props (B : List Nat) :
    ∀ l ∈ payloadLines B, l.headD ' ' = ' ' ∧ '\n' ∉ l ∧ l ≠ [] :=
  mkLinesGo_props _ _ (b64encode_no_nl B)

theorem intercalate_cons_cons (l1 l2 : List Char) (ls : List (List Char)) :
    List.intercalate ['\n'] (l1 :: l2 :: ls) =
      l1 ++ '\n' :: List.intercalate ['\n'] (l2 :: ls) := by
  simp [List.intercalate, List.intersperse]

theorem count_pyLines_lines (L : List Char) (hL1 : L.headD ' ' ≠ ' ') (hL2 : L ≠ ['\n'])
    (R : List Char) : ∀ ls : List (List Char),
    (∀ l ∈ ls, l.headD ' ' = ' ' ∧ '\n' ∉ l ∧ l ≠ []) →
    List.count L (pyLines (List.intercalate ['\n'] ls ++ '\n' :: R)) =
      List.count L (pyLines R) := by
  intro ls
  induction ls with
  | nil =>
    intro _
    rw [show List.intercalate ['\n'] ([] : List (List Char)) = [] from rfl,
      List.nil_append,
      show pyLines ('\n' :: R) = ['\n'] :: pyLines R from by simp [pyLines],
      List.count_cons]
    simp [show (['\n'] : List Char) ≠ L from fun h => hL2 h.symm]
  | cons l rest ih =>
    intro hprops
    have hl := hprops l (List.mem_cons_self _ _)
    have hne : l ++ ['\n'] ≠ L := by
      intro h
      obtain ⟨c0, l0, hc0⟩ := List.exists_cons_of_ne_nil hl.2.2
      apply hL1
      rw [← h, hc0]
      have h1 : c0 = ' ' := by
        have := hl.1
        rw [hc0] at this
        simpa using this
      simp [h1]
    cases rest with
    | nil =>
      rw [show List.intercalate ['\n'] [l] = l from by simp [List.intercalate],
        pyLines_line_cons l hl.2.1, List.count_cons]
      simp [hne]
    | cons l2 rest2 =>
      rw [intercalate_cons_cons l l2 rest2,
        show (l ++ '\n' :: List.intercalate ['\n'] (l2 :: rest2)) ++ '\n' :: R =
          l ++ '\n' :: (List.intercalate ['\n'] (l2 :: rest2) ++ '\n' :: R) from by simp,
        pyLines_line_cons l hl.2.1, List.count_cons,
        ih (fun m hm => hprops m (List.mem_cons_of_mem _ hm))]
      simp [hne]

theorem count_pyLines_payload (L : List Char) (hL1 : L.headD ' ' ≠ ' ') (hL2 : L ≠ ['\n'])
    (B : List Nat) (R : List Char) :
    List.count L (pyLines (payloadText B ++ '\n' :: R)) = List.count L (pyLines R) :=
  count_pyLines_lines L hL1 hL2 R (payloadLines B) (payload_line_props B)

theorem merge_ne_catalogLine (x : List Char) : x ++ sepLine ≠ catalogLine := by
  intro h
  have hlen := congrArg List.length h
  rw [List.length_append] at hlen
  have h72 : sepLine.length = 72 := by decide
  have h13 : catalogLine.length = 13 := by decide
  omega

theorem asg_line_length_ne (v : List Char) (L : List Char) (hL : L.length < 20) :
    (v ++ asgBody) ++ ['\n'] ≠ L := by
  intro h
  have hlen := congrArg List.length h
  simp only [List.length_append, List.length_cons, List.length_nil] at hlen
  have h19 : asgBody.length = 19 := by decide
  omega

theorem catLine_cons (N v : List Char) :
    catLine N v =
      'c':: 'a':: 't':: 'a':: 'l':: 'o':: 'g':: '['::qc::
        (N ++ ([qc] ++ (chars "] = " ++ (v ++ ['\n'])))) := rfl

theorem catLine_ne_catalogLine (N v : List Char) : catLine N v ≠ catalogLine := by
  intro h
  rw [catLine_cons] at h
  have h0 : ('[' : Char) = ' ' := congrArg (fun l => l.getD 7 ' ') h
  exact absurd h0 (by decide)

theorem ixPre_no_nl (N : List Char) (hn : '\n' ∉ N) : '\n' ∉ ixPre N := by
  intro h
  rcases List.mem_append.mp h with h1 | h2
  · revert h1; decide
  · rcases List.mem_append.mp h2 with h3 | h4
    · revert h3; decide
    · rcases List.mem_append.mp h4 with h5 | h6
      · exact hn h5
      · revert h6; decide

theorem catPre_no_nl (N v : List Char) (hn : '\n' ∉ N) (hv : '\n' ∉ v) :
    '\n' ∉ catPre N v := by
  intro h
  rcases List.mem_append.mp h with h1 | h2
  · revert h1; decide
  · rcases List.mem_append.mp h2 with h3 | h4
    · revert h3; decide
    · rcases List.mem_append.mp h4 with h5 | h6
      · exact hn h5
      · rcases List.mem_append.mp h6 with h7 | h8
        · revert h7; decide
        · rcases List.mem_append.mp h8 with h9 | h10
          · revert h9; decide
          · exact hv h10

theorem asgBody_getLast : ((v : List Char) → (v ++ asgBody).getLast? = some '(') := by
  intro v
  rw [List.getLast?_append_of_ne_nil _ (by decide)]
  decide

theorem ixPre_getLast (N : List Char) : (ixPre N).getLast? = some ')' := by
  unfold ixPre
  rw [List.getLast?_append_of_ne_nil _ (by simp),
    List.getLast?_append_of_ne_nil _ (by simp),
    List.getLast?_append_of_ne_nil _ (by simp)]
  rfl

theorem asg_line_ne_indexLine (v N : List Char) : (v ++ asgBody) ++ ['\n'] ≠ indexLine N := by
  intro h
  rw [indexLine_eq] at h
  have h2 := List.append_cancel_right h
  have h3 := asgBody_getLast v
  rw [h2, ixPre_getLast] at h3
  exact absurd h3 (by decide)

theorem catPre_getLast (N v : List Char) (hv : v ≠ []) :
    ∃ c, (catPre N v).getLast? = some c ∧ c ∈ v := by
  obtain ⟨c, hc⟩ := Option.ne_none_iff_exists'.mp
    (fun h => hv (List.getLast?_eq_none_iff.mp h))
  refine ⟨c, ?_, List.mem_of_getLast?_eq_some hc⟩
  unfold catPre
  rw [List.getLast?_append_of_ne_nil _ (by simp [hv]),
    List.getLast?_append_of_ne_nil _ (by simp [hv]),
    List.getLast?_append_of_ne_nil _ (by simp [hv]),
    List.getLast?_append_of_ne_nil _
      (fun h => absurd (List.append_eq_nil.mp h).1 (by decide)),
    List.getLast?_append_of_ne_nil _ hv]
  exact hc

theorem asg_line_ne_catLine (v N v2 : List Char) (hv2 : v2 ≠ [])
    (hvc : ∀ c ∈ v2, c.isAlphanum ∨ c = '_') :
    (v ++ asgBody) ++ ['\n'] ≠ catLine N v2 := by
  intro h
  rw [catLine_eq] at h
  have h2 := List.append_cancel_right h
  obtain ⟨c, hc, hcm⟩ := catPre_getLast N v2 hv2
  have h3 := asgBody_getLast v
  rw [h2, hc] at h3
  have hc2 : c = '(' := Option.some.inj h3
  rcases hvc c hcm with h4 | h4
  · rw [hc2] at h4; revert h4; decide
  · rw [hc2] at h4; revert h4; decide

theorem accData_split (v Y : List Char) :
    accData v ++ Y =
      (chars "get" ++ (v ++ (chars "Data = " ++ (v ++ chars ".GetData")))) ++ '\n' :: Y := by
  simp [accData, show chars ".GetData\n" = chars ".GetData" ++ ['\n'] from by decide,
    List.append_assoc]

theorem accImage_split (v Y : List Char) :
    accImage v ++ Y =
      (chars "get" ++ (v ++ (chars "Image = " ++ (v ++ chars ".GetImage")))) ++ '\n' :: Y := by
  simp [accImage, show chars ".GetImage\n" = chars ".GetImage" ++ ['\n'] from by decide,
    List.append_assoc]

theorem accBitmap_split (v Y : List Char) :
    accBitmap v ++ Y =
      (chars "get" ++ (v ++ (chars "Bitmap = " ++ (v ++ chars ".GetBitmap")))) ++ '\n' :: Y := by
  simp [accBitmap, show chars ".GetBitmap\n" = chars ".GetBitmap" ++ ['\n'] from by decide,
    List.append_assoc]

theorem accIcon_split (v Y : List Char) :
    accIcon v ++ Y =
      (chars "get" ++ (v ++ (chars "Icon = " ++ (v ++ chars ".GetIcon")))) ++ '\n' :: Y := by
  simp [accIcon, show chars ".GetIcon\n" = chars ".GetIcon" ++ ['\n'] from by decide,
    List.append_assoc]

theorem acc_body_no_nl (v m t : List Char) (hnv : '\n' ∉ v) (hm : '\n' ∉ m) (ht : '\n' ∉ t) :
    '\n' ∉ chars "get" ++ (v ++ (m ++ (v ++ t))) := by
  intro h
  rcases List.mem_append.mp h with h1 | h2
  · revert h1; decide
  · rcases List.mem_append.mp h2 with h3 | h4
    · exact hnv h3
    · rcases List.mem_append.mp h4 with h5 | h6
      · exact hm h5
      · rcases List.mem_append.mp h6 with h7 | h8
        · exact hnv h7
        · exact ht h8

theorem count_pyLines_func (L : List Char) (hL : L.headD ' ' ≠ 'g') (hL2 : L ≠ ['\n'])
    (v : List Char) (hnv : '\n' ∉ v) (icon : Bool) :
    List.count L (pyLines (funcText v icon ++ ['\n'])) = 0 := by
  have hnl_line : (['\n'] : List Char) ≠ L := fun h => hL2 h.symm
  have hne1 : chars "get" ++ (v ++ (chars "Data = " ++ (v ++ (chars ".GetData" ++ ['\n'])))) ≠ L :=
    fun h => hL (h ▸ (rfl :
      (chars "get" ++ (v ++ (chars "Data = " ++ (v ++ (chars ".GetData" ++ ['\n']))))).headD ' ' = 'g'))
  have hne2 : chars "get" ++ (v ++ (chars "Image = " ++ (v ++ (chars ".GetImage" ++ ['\n'])))) ≠ L :=
    fun h => hL (h ▸ (rfl :
      (chars "get" ++ (v ++ (chars "Image = " ++ (v ++ (chars ".GetImage" ++ ['\n']))))).headD ' ' = 'g'))
  have hne3 : chars "get" ++ (v ++ (chars "Bitmap = " ++ (v ++ (chars ".GetBitmap" ++ ['\n'])))) ≠ L :=
    fun h => hL (h ▸ (rfl :
      (chars "get" ++ (v ++ (chars "Bitmap = " ++ (v ++ (chars ".GetBitmap" ++ ['\n']))))).headD ' ' = 'g'))
  have hne4 : chars "get" ++ (v ++ (chars "Icon = " ++ (v ++ (chars ".GetIcon" ++ ['\n'])))) ≠ L :=
    fun h => hL (h ▸ (rfl :
      (chars "get" ++ (v ++ (chars "Icon = " ++ (v ++ (chars ".GetIcon" ++ ['\n']))))).headD ' ' = 'g'))
  rw [show funcText v icon ++ ['\n'] =
      accData v ++ (accImage v ++ (accBitmap v ++ ((if icon then accIcon v else []) ++ ['\n'])))
    from by simp [funcText, List.append_assoc]]
  rw [accData_split, pyLines_line_cons _
    (acc_body_no_nl v _ _ hnv (by decide) (by decide)), List.count_cons]
  rw [accImage_split, pyLines_line_cons _
    (acc_body_no_nl v _ _ hnv (by decide) (by decide)), List.count_cons]
  rw [accBitmap_split, pyLines_line_cons _
    (acc_body_no_nl v _ _ hnv (by decide) (by decide)), List.count_cons]
  cases icon
  · rw [show ((if false then accIcon v else []) ++ ['\n'] : List Char) = ['\n'] from by simp]
    rw [show pyLines ['\n'] = [['\n']] from by simp [pyLines], List.count_cons, List.count_nil]
    simp [List.append_assoc, hne1, hne2, hne3, hnl_line]
  · rw [show ((if true then accIcon v else []) ++ ['\n'] : List Char) = accIcon v ++ ['\n'] from by
      simp]
    rw [accIcon_split, pyLines_line_cons _
      (acc_body_no_nl v _ _ hnv (by decide) (by decide)), List.count_cons]
    rw [show pyLines ['\n'] = [['\n']] from by simp [pyLines], List.count_cons, List.count_nil]
    simp [List.append_assoc, hne1, hne2, hne3, hne4, hnl_line]

theorem sanitize_chars (N v : List Char)
    (hv : _replace_non_alphanumeric_with_underscore N = some v) :
    (∀ c ∈ v, c.isAlphanum ∨ c = '_') ∧ v ≠ [] := by
  match N with
  | [] => exact Option.noConfusion hv
  | a :: as =>
    obtain ⟨v2, hv2, hc, c0, cs, hcons, _⟩ := sanitize_sound (a :: as) (by simp)
    rw [hv2] at hv
    have hveq : v2 = v := Option.some.inj hv
    subst hveq
    exact ⟨hc, by rw [hcons]; simp⟩

theorem sanitize_no_nl (N v : List Char)
    (hv : _replace_non_alphanumeric_with_underscore N = some v) : '\n' ∉ v := by
  intro hm
  rcases (sanitize_chars N v hv).1 '\n' hm with h | h
  · revert h; decide
  · revert h; decide

theorem writeImage_append_text (N data v : List Char) (icon cat fc : Bool)
    (idx : List (List Char)) (argv0 : List Char)
    (hv : _replace_non_alphanumeric_with_underscore N = some v) :
    (_write_image N data true icon cat fc idx argv0).1 =
      sepLine ++ ((v ++ asgBody) ++ '\n' :: (data ++ '\n' ::
        ((if cat then indexLine N ++ catLine N v else []) ++
          ((if fc then funcText v icon else []) ++ ['\n'])))) := by
  simp only [_write_image, hv]
  rw [assignText_eq]
  simp [List.append_assoc]

theorem writeStep_run (cfg : Config) (data : List Char) (idx : List (List Char))
    (fs : Option (List Char)) (t : Bool) (hf : cfg.python_file ≠ ['-'])
    (ha : cfg.append = true) (v : List Char)
    (hv : _replace_non_alphanumeric_with_underscore cfg.imgName = some v) :
    writeStep cfg data idx fs t =
      ⟨some (fs.getD [] ++ (_write_image cfg.imgName data cfg.append cfg.icon cfg.catalog
          cfg.functionCompatible idx cfg.argv0).1), [],
        (if cfg.catalog ∧ cfg.imgName ∈ idx then [warnShadow1 cfg.imgName, warnShadow2]
          else []) ++ [embedMsg cfg], t, Outcome.returned⟩ := by
  simp only [writeStep]
  rw [if_neg hf]
  simp only [_write_image, hv, ha, if_true]

theorem img2py_append_step (cfg : Config) (bytes : List Nat) (content : List Char)
    (ha : cfg.append = true) (hc : cfg.catalog = true) (hf : cfg.python_file ≠ ['-']) :
    img2py cfg (.ok bytes) (some content) =
      writeStep cfg (payloadText bytes) (scanLines (pyLines content) true []).2
        (some (if (scanLines (pyLines content) true []).1 then content ++ catalogStartBlock
          else content)) false := by
  simp only [img2py]
  rw [if_pos ⟨hc, ha, hf⟩]
  rfl

theorem count_pyLines_optFunc (L : List Char) (hL : L.headD ' ' ≠ 'g') (hL2 : L ≠ ['\n'])
    (v : List Char) (hnv : '\n' ∉ v) (icon fc : Bool) :
    List.count L (pyLines ((if fc then funcText v icon else []) ++ ['\n'])) = 0 := by
  cases fc
  · rw [show ((if false then funcText v icon else []) ++ ['\n'] : List Char) = ['\n'] from by simp,
      show pyLines ['\n'] = [['\n']] from by simp [pyLines], List.count_cons, List.count_nil]
    simp [show (['\n'] : List Char) ≠ L from fun h => hL2 h.symm]
  · rw [show ((if true then funcText v icon else []) ++ ['\n'] : List Char) =
        funcText v icon ++ ['\n'] from by simp]
    exact count_pyLines_func L hL hL2 v hnv icon

/-- C7: appending a record (append+catalog, file target, a well-formed
nonempty name) to an artifact that already contains exactly one
occurrence of the scaffolding-marker line does not write the scaffolding
again: the resulting artifact contains exactly one marker line. -/
theorem C7_scaffold_once (cfg : Config) (bytes : List Nat) (content : List Char)
    (ha : cfg.append = true) (hc : cfg.catalog = true) (hf : cfg.python_file ≠ ['-'])
    (hN : cfg.imgName ≠ []) (hnN : '\n' ∉ cfg.imgName)
    (hcount : List.count catalogLine (pyLines content) = 1) :
    ∃ c2, (img2py cfg (CodecResult.ok bytes) (some content)).file = some c2 ∧
      List.count catalogLine (pyLines c2) = 1 := by
  obtain ⟨v, hv, hvc, c0, cs, hvcons, hhead⟩ := sanitize_sound cfg.imgName hN
  have hnv : '\n' ∉ v := sanitize_no_nl _ _ hv
  have hmem : catalogLine ∈ pyLines content := List.count_pos_iff.mp (by omega)
  have hflag := scanLines_fst (pyLines content) true [] hmem
  rw [img2py_append_step cfg bytes content ha hc hf, hflag]
  rw [show (if (false : Bool) then content ++ catalogStartBlock else content) = content from rfl]
  rw [writeStep_run cfg _ _ _ _ hf ha v hv]
  refine ⟨_, rfl, ?_⟩
  rw [ha, hc]
  rw [show (some content : Option (List Char)).getD [] = content from rfl]
  rw [writeImage_append_text cfg.imgName (payloadText bytes) v cfg.icon true
    cfg.functionCompatible _ cfg.argv0 hv]
  rw [count_pyLines_sep_append catalogLine (by decide) merge_ne_catalogLine _
    content.length content (Nat.le_refl _), hcount]
  have hno2 : '\n' ∉ v ++ asgBody := by
    intro hm
    rcases List.mem_append.mp hm with h1 | h1
    · exact hnv h1
    · revert h1; decide
  have hsplit : ((if true then indexLine cfg.imgName ++ catLine cfg.imgName v else []) ++
      ((if cfg.functionCompatible then funcText v cfg.icon else []) ++ ['\n'])) =
      ixPre cfg.imgName ++ '\n' :: (catPre cfg.imgName v ++ '\n' ::
        ((if cfg.functionCompatible then funcText v cfg.icon else []) ++ ['\n'])) := by
    rw [if_pos rfl, indexLine_eq, catLine_eq]
    simp
  rw [hsplit, pyLines_sep_cons, List.count_cons,
    pyLines_line_cons (v ++ asgBody) hno2, List.count_cons,
    count_pyLines_payload catalogLine (by decide) (by decide) bytes _,
    pyLines_line_cons (ixPre cfg.imgName) (ixPre_no_nl cfg.imgName hnN), List.count_cons,
    pyLines_line_cons (catPre cfg.imgName v) (catPre_no_nl cfg.imgName v hnN hnv),
    List.count_cons,
    count_pyLines_optFunc catalogLine (by decide) (by decide) v hnv cfg.icon
      cfg.functionCompatible]
  have k1 : sepLine ≠ catalogLine := by decide
  have k2 : v ++ (asgBody ++ ['\n']) ≠ catalogLine := by
    rw [← List.append_assoc]; exact asg_line_length_ne v _ (by decide)
  have k3 : ixPre cfg.imgName ++ ['\n'] ≠ catalogLine := by
    rw [← indexLine_eq]; exact indexLine_ne_catalogLine cfg.imgName
  have k4 : catPre cfg.imgName v ++ ['\n'] ≠ catalogLine := by
    rw [← catLine_eq]; exact catLine_ne_catalogLine cfg.imgName v
  simp [k1, k2, k3, k4]

theorem C7_scaffold_once_witness :
    (cfgB.append = true ∧ cfgB.catalog = true ∧ cfgB.python_file ≠ ['-'] ∧
      cfgB.imgName ≠ [] ∧ '\n' ∉ cfgB.imgName ∧
      List.count catalogLine (pyLines (chars "catalog = \x7b\x7d\nindex = []\n\n")) = 1) ∧
    ∃ c2, (img2py cfgB (CodecResult.ok [1, 2, 3])
        (some (chars "catalog = \x7b\x7d\nindex = []\n\n"))).file = some c2 ∧
      List.count catalogLine (pyLines c2) = 1 :=
  ⟨⟨rfl, rfl, by decide, by decide, by decide, by decide⟩,
   C7_scaffold_once cfgB [1, 2, 3] (chars "catalog = \x7b\x7d\nindex = []\n\n")
     rfl rfl (by decide) (by decide) (by decide) (by decide)⟩

theorem pyLines_append_nl (a b : List Char) (ha : a.getLast? = some '\n') :
    pyLines (a ++ b) = pyLines a ++ pyLines b := by
  induction a with
  | nil => simp at ha
  | cons c a2 ih =>
    cases a2 with
    | nil =>
      have hc : c = '\n' := by simpa using ha
      subst hc
      simp [pyLines]
    | cons d a3 =>
      have ha2 : (d :: a3).getLast? = some '\n' := by
        rwa [List.getLast?_cons_cons] at ha
      have ih2 := ih ha2
      by_cases hc : c = '\n'
      · subst hc
        rw [List.cons_append,
          show pyLines ('\n' :: ((d :: a3) ++ b)) = ['\n'] :: pyLines ((d :: a3) ++ b) from by
            simp [pyLines],
          ih2,
          show pyLines ('\n' :: (d :: a3)) = ['\n'] :: pyLines (d :: a3) from by
            simp [pyLines]]
        simp
      · obtain ⟨l, ls, hp⟩ := List.exists_cons_of_ne_nil (pyLines_ne_nil (d :: a3) (by simp))
        rw [List.cons_append, pyLines_cons_ne c hc _, pyLines_cons_ne c hc (d :: a3),
          ih2, hp]
        simp

theorem merge_ne_indexLine (N : List Char) : ∀ x : List Char, x ++ sepLine ≠ indexLine N := by
  intro x h
  rw [indexLine_eq, sepLine_eq, ← List.append_assoc] at h
  have h2 := List.append_cancel_right h
  have h3 : (x ++ sepBody).getLast? = some '-' := by
    rw [List.getLast?_append_of_ne_nil _ (by decide)]
    decide
  rw [h2, ixPre_getLast] at h3
  exact absurd h3 (by decide)

theorem merge_ne_catLine (N v : List Char) (hvne : v ≠ [])
    (hvc : ∀ c ∈ v, c.isAlphanum ∨ c = '_') :
    ∀ x : List Char, x ++ sepLine ≠ catLine N v := by
  intro x h
  rw [catLine_eq, sepLine_eq, ← List.append_assoc] at h
  have h2 := List.append_cancel_right h
  obtain ⟨c, hcl, hcm⟩ := catPre_getLast N v hvne
  have h3 : (x ++ sepBody).getLast? = some '-' := by
    rw [List.getLast?_append_of_ne_nil _ (by decide)]
    decide
  rw [h2, hcl] at h3
  have hcd : c = '-' := Option.some.inj h3
  rcases hvc c hcm with h4 | h4
  · rw [hcd] at h4; revert h4; decide
  · rw [hcd] at h4; revert h4; decide

theorem recordTail_split (N v : List Char) (icon fc : Bool) :
    ((if true then indexLine N ++ catLine N v else []) ++
      ((if fc then funcText v icon else []) ++ ['\n'])) =
    ixPre N ++ '\n' :: (catPre N v ++ '\n' ::
      ((if fc then funcText v icon else []) ++ ['\n'])) := by
  rw [if_pos rfl, indexLine_eq, catLine_eq]
  simp

theorem record_count_indexLine (N v : List Char) (bytes : List Nat) (icon fc : Bool)
    (hnN : '\n' ∉ N) (hnv : '\n' ∉ v) :
    List.count (indexLine N) (pyLines (sepLine ++ ((v ++ asgBody) ++ '\n' ::
      (payloadText bytes ++ '\n' :: (ixPre N ++ '\n' :: (catPre N v ++ '\n' ::
        ((if fc then funcText v icon else []) ++ ['\n']))))))) = 1 := by
  have hno2 : '\n' ∉ v ++ asgBody := by
    intro hm
    rcases List.mem_append.mp hm with h1 | h1
    · exact hnv h1
    · revert h1; decide
  have hp1 : (indexLine N).headD ' ' ≠ ' ' := (by decide : ('i' : Char) ≠ ' ')
  have hp2 : indexLine N ≠ ['\n'] :=
    fun h => absurd (congrArg (fun l => l.headD ' ') h : ('i' : Char) = '\n') (by decide)
  have hpg : (indexLine N).headD ' ' ≠ 'g' := (by decide : ('i' : Char) ≠ 'g')
  rw [pyLines_sep_cons, List.count_cons,
    pyLines_line_cons (v ++ asgBody) hno2, List.count_cons,
    count_pyLines_payload (indexLine N) hp1 hp2 bytes _,
    pyLines_line_cons (ixPre N) (ixPre_no_nl N hnN), List.count_cons,
    pyLines_line_cons (catPre N v) (catPre_no_nl N v hnN hnv), List.count_cons,
    count_pyLines_optFunc (indexLine N) hpg hp2 v hnv icon fc,
    ← indexLine_eq, ← catLine_eq]
  have m1 : sepLine ≠ indexLine N :=
    fun h => absurd (congrArg (fun l => l.headD ' ') h : ('#' : Char) = 'i') (by decide)
  have m2 : v ++ (asgBody ++ ['\n']) ≠ indexLine N := by
    rw [← List.append_assoc]; exact asg_line_ne_indexLine v N
  have m3 : catLine N v ≠ indexLine N :=
    fun h => absurd (congrArg (fun l => l.headD ' ') h : ('c' : Char) = 'i') (by decide)
  simp [m1, m2, m3]

theorem record_count_catLine (N v : List Char) (bytes : List Nat) (icon fc : Bool)
    (hnN : '\n' ∉ N) (hnv : '\n' ∉ v) (hvne : v ≠ [])
    (hvc : ∀ c ∈ v, c.isAlphanum ∨ c = '_') :
    List.count (catLine N v) (pyLines (sepLine ++ ((v ++ asgBody) ++ '\n' ::
      (payloadText bytes ++ '\n' :: (ixPre N ++ '\n' :: (catPre N v ++ '\n' ::
        ((if fc then funcText v icon else []) ++ ['\n']))))))) = 1 := by
  have hno2 : '\n' ∉ v ++ asgBody := by
    intro hm
    rcases List.mem_append.mp hm with h1 | h1
    · exact hnv h1
    · revert h1; decide
  have hp1 : (catLine N v).headD ' ' ≠ ' ' := (by decide : ('c' : Char) ≠ ' ')
  have hp2 : catLine N v ≠ ['\n'] :=
    fun h => absurd (congrArg (fun l => l.headD ' ') h : ('c' : Char) = '\n') (by decide)
  have hpg : (catLine N v).headD ' ' ≠ 'g' := (by decide : ('c' : Char) ≠ 'g')
  rw [pyLines_sep_cons, List.count_cons,
    pyLines_line_cons (v ++ asgBody) hno2, List.count_cons,
    count_pyLines_payload (catLine N v) hp1 hp2 bytes _,
    pyLines_line_cons (ixPre N) (ixPre_no_nl N hnN), List.count_cons,
    pyLines_line_cons (catPre N v) (catPre_no_nl N v hnN hnv), List.count_cons,
    count_pyLines_optFunc (catLine N v) hpg hp2 v hnv icon fc,
    ← indexLine_eq, ← catLine_eq]
  have m1 : sepLine ≠ catLine N v :=
    fun h => absurd (congrArg (fun l => l.headD ' ') h : ('#' : Char) = 'c') (by decide)
  have m2 : v ++ (asgBody ++ ['\n']) ≠ catLine N v := by
    rw [← List.append_assoc]
    exact asg_line_ne_catLine v N v hvne hvc
  have m3 : indexLine N ≠ catLine N v :=
    fun h => absurd (congrArg (fun l => l.headD ' ') h : ('i' : Char) = 'c') (by decide)
  simp [m1, m2, m3]

theorem count_block_indexLine (N : List Char) :
    List.count (indexLine N) (pyLines catalogStartBlock) = 0 := by
  have hb : pyLines catalogStartBlock =
      [['\n'], chars "# ***************** Catalog starts here *******************\n", ['\n'],
       chars "catalog = \x7b\x7d\n", chars "index = []\n", ['\n']] := by decide
  have n1 : (['\n'] : List Char) ≠ indexLine N :=
    fun h => absurd (congrArg (fun l => l.headD ' ') h : ('\n' : Char) = 'i') (by decide)
  have n2 : chars "# ***************** Catalog starts here *******************\n" ≠ indexLine N :=
    fun h => absurd (congrArg (fun l => l.headD ' ') h : ('#' : Char) = 'i') (by decide)
  have n3 : chars "catalog = \x7b\x7d\n" ≠ indexLine N :=
    fun h => absurd (congrArg (fun l => l.headD ' ') h : ('c' : Char) = 'i') (by decide)
  have n4 : chars "index = []\n" ≠ indexLine N :=
    fun h => absurd (congrArg (fun l => l.getD 5 ' ') h : (' ' : Char) = '.') (by decide)
  rw [hb]
  simp [List.count_cons, n1, n2, n3, n4]

theorem count_block_catLine (N v : List Char) :
    List.count (catLine N v) (pyLines catalogStartBlock) = 0 := by
  have hb : pyLines catalogStartBlock =
      [['\n'], chars "# ***************** Catalog starts here *******************\n", ['\n'],
       chars "catalog = \x7b\x7d\n", chars "index = []\n", ['\n']] := by decide
  have n1 : (['\n'] : List Char) ≠ catLine N v :=
    fun h => absurd (congrArg (fun l => l.headD ' ') h : ('\n' : Char) = 'c') (by decide)
  have n2 : chars "# ***************** Catalog starts here *******************\n" ≠ catLine N v :=
    fun h => absurd (congrArg (fun l => l.headD ' ') h : ('#' : Char) = 'c') (by decide)
  have n3 : chars "catalog = \x7b\x7d\n" ≠ catLine N v :=
    fun h => absurd (congrArg (fun l => l.getD 7 ' ') h : (' ' : Char) = '[') (by decide)
  have n4 : chars "index = []\n" ≠ catLine N v :=
    fun h => absurd (congrArg (fun l => l.headD ' ') h : ('i' : Char) = 'c') (by decide)
  rw [hb]
  simp [List.count_cons, n1, n2, n3, n4]

/-- C8: in catalog mode (append, file target), when the logical name
being registered already occurs in the reconstructed known-names
sequence, the emitter prints the shadowing warning and still appends the
record: the artifact ends up with two index-append and two
mapping-registration statements for that name, and the invocation
returns normally. -/
theorem C8_duplicate_shadow (cfg : Config) (bytes : List Nat) (content v : List Char)
    (ha : cfg.append = true) (hc : cfg.catalog = true) (hf : cfg.python_file ≠ ['-'])
    (hN : cfg.imgName ≠ []) (hq : qc ∉ cfg.imgName) (hnN : '\n' ∉ cfg.imgName)
    (hv : _replace_non_alphanumeric_with_underscore cfg.imgName = some v)
    (hend : content.getLast? = some '\n')
    (hidx : List.count (indexLine cfg.imgName) (pyLines content) = 1)
    (hcat : List.count (catLine cfg.imgName v) (pyLines content) = 1) :
    warnShadow1 cfg.imgName ∈ (img2py cfg (CodecResult.ok bytes) (some content)).printed ∧
    (img2py cfg (CodecResult.ok bytes) (some content)).outcome = Outcome.returned ∧
    ∃ c2, (img2py cfg (CodecResult.ok bytes) (some content)).file = some c2 ∧
      List.count (indexLine cfg.imgName) (pyLines c2) = 2 ∧
      List.count (catLine cfg.imgName v) (pyLines c2) = 2 := by
  obtain ⟨hvc, hvne⟩ := sanitize_chars cfg.imgName v hv
  have hnv : '\n' ∉ v := sanitize_no_nl _ _ hv
  have hmemline : indexLine cfg.imgName ∈ pyLines content := List.count_pos_iff.mp (by omega)
  have hNidx : cfg.imgName ∈ (scanLines (pyLines content) true []).2 := by
    rw [scanLines_snd]
    refine List.mem_append.mpr (Or.inr ?_)
    refine List.mem_filterMap.mpr ⟨indexLine cfg.imgName, hmemline, ?_⟩
    rw [if_neg (indexLine_ne_catalogLine cfg.imgName)]
    exact indexPatternMatch_indexLine cfg.imgName hN hq hnN
  have hcount2 : ∀ L : List Char, List.count L (pyLines content) = 1 →
      List.count L (pyLines catalogStartBlock) = 0 →
      List.count L (pyLines (if (scanLines (pyLines content) true []).1 then
        content ++ catalogStartBlock else content)) = 1 := by
    intro L h1 h0
    cases hfl : (scanLines (pyLines content) true []).1
    · simpa using h1
    · rw [if_pos rfl, pyLines_append_nl content _ hend, List.count_append, h1, h0]
  rw [img2py_append_step cfg bytes content ha hc hf,
    writeStep_run cfg _ _ _ _ hf ha v hv]
  refine ⟨?_, rfl, ?_⟩
  · simp [hc, hNidx]
  · refine ⟨_, rfl, ?_, ?_⟩
    · rw [show ((some (if (scanLines (pyLines content) true []).1 then
          content ++ catalogStartBlock else content) : Option (List Char)).getD []) =
          (if (scanLines (pyLines content) true []).1 then
            content ++ catalogStartBlock else content) from rfl]
      rw [ha, hc, writeImage_append_text cfg.imgName (payloadText bytes) v cfg.icon true
        cfg.functionCompatible _ cfg.argv0 hv, recordTail_split]
      rw [count_pyLines_sep_append (indexLine cfg.imgName)
        (by rw [indexLine_eq]; simp) (merge_ne_indexLine cfg.imgName) _ _ _ (Nat.le_refl _)]
      rw [hcount2 _ hidx (count_block_indexLine _),
        record_count_indexLine cfg.imgName v bytes cfg.icon cfg.functionCompatible hnN hnv]
    · rw [show ((some (if (scanLines (pyLines content) true []).1 then
          content ++ catalogStartBlock else content) : Option (List Char)).getD []) =
          (if (scanLines (pyLines content) true []).1 then
            content ++ catalogStartBlock else content) from rfl]
      rw [ha, hc, writeImage_append_text cfg.imgName (payloadText bytes) v cfg.icon true
        cfg.functionCompatible _ cfg.argv0 hv, recordTail_split]
      rw [count_pyLines_sep_append (catLine cfg.imgName v)
        (by rw [catLine_eq]; simp) (merge_ne_catLine cfg.imgName v hvne hvc) _ _ _
        (Nat.le_refl _)]
      rw [hcount2 _ hcat (count_block_catLine _ _),
        record_count_catLine cfg.imgName v bytes cfg.icon cfg.functionCompatible hnN hnv
          hvne hvc]

theorem C8_duplicate_shadow_witness :
    (cfgB.append = true ∧ cfgB.catalog = true ∧ cfgB.python_file ≠ ['-'] ∧
     cfgB.imgName ≠ [] ∧ qc ∉ cfgB.imgName ∧ '\n' ∉ cfgB.imgName ∧
     _replace_non_alphanumeric_with_underscore cfgB.imgName = some (chars "b") ∧
     (chars "catalog = \x7b\x7d\n" ++ (indexLine (chars "b") ++
       catLine (chars "b") (chars "b"))).getLast? = some '\n' ∧
     List.count (indexLine cfgB.imgName) (pyLines (chars "catalog = \x7b\x7d\n" ++
       (indexLine (chars "b") ++ catLine (chars "b") (chars "b")))) = 1 ∧
     List.count (catLine cfgB.imgName (chars "b")) (pyLines (chars "catalog = \x7b\x7d\n" ++
       (indexLine (chars "b") ++ catLine (chars "b") (chars "b")))) = 1) ∧
    (warnShadow1 cfgB.imgName ∈ (img2py cfgB (CodecResult.ok [1, 2, 3])
        (some (chars "catalog = \x7b\x7d\n" ++ (indexLine (chars "b") ++
          catLine (chars "b") (chars "b"))))).printed ∧
     (img2py cfgB (CodecResult.ok [1, 2, 3]) (some (chars "catalog = \x7b\x7d\n" ++
       (indexLine (chars "b") ++ catLine (chars "b") (chars "b"))))).outcome =
         Outcome.returned ∧
     ∃ c2, (img2py cfgB (CodecResult.ok [1, 2, 3]) (some (chars "catalog = \x7b\x7d\n" ++
         (indexLine (chars "b") ++ catLine (chars "b") (chars "b"))))).file = some c2 ∧
       List.count (indexLine cfgB.imgName) (pyLines c2) = 2 ∧
       List.count (catLine cfgB.imgName (chars "b")) (pyLines c2) = 2) :=
  ⟨⟨rfl, rfl, by decide, by decide, by decide, by decide, by decide, by decide, by decide,
    by decide⟩,
   C8_duplicate_shadow cfgB [1, 2, 3]
     (chars "catalog = \x7b\x7d\n" ++ (indexLine (chars "b") ++ catLine (chars "b") (chars "b")))
     (chars "b") rfl rfl (by decide) (by decide) (by decide) (by decide) (by decide)
     (by decide) (by decide) (by decide)⟩
